import Mathlib

set_option maxRecDepth 16384

namespace KmonadVis

/-- ASCII whitespace predicate used throughout the embedding, mirroring the
whitespace test of the source (space, tab, newline, carriage return,
vertical tab, form feed). -/
def isSpace (c : Char) : Bool :=
  decide (c = ' ' ∨ c = '\t' ∨ c = '\n' ∨ c = '\r' ∨ c = '\x0B' ∨ c = '\x0C')

/-- Trim whitespace from both ends of a character list (Python str.strip). -/
def strip (s : List Char) : List Char :=
  ((s.dropWhile isSpace).reverse.dropWhile isSpace).reverse

/-- First-match association-list lookup, modelling Python dict lookup (the
construction below keeps keys unique, so first match is the binding). -/
def lookupA {α β : Type} [DecidableEq α] : List (α × β) → α → Option β
  | [], _ => none
  | (k, v) :: rest, key => if k = key then some v else lookupA rest key

/-- Python dict assignment d[k] = v: update the value in place if the key is
present, otherwise append the new binding at the end. -/
def dictInsert {α β : Type} [DecidableEq α] (m : List (α × β)) (k : α) (v : β) :
    List (α × β) :=
  if m.any (fun p => decide (p.1 = k)) then
    m.map (fun p => if p.1 = k then (k, v) else p)
  else m ++ [(k, v)]

/-- Errors raised by find_top_level_expression: an unmatched closing
parenthesis at a given index, or an unmatched opening parenthesis for the
expression starting at a given index. -/
inductive ScanError where
  | unmatchedClose : Nat → ScanError
  | unmatchedOpen : Nat → ScanError
deriving DecidableEq

/-- Loop of find_top_level_expression. The list argument is the still
unprocessed suffix content.drop i, where i is the current index; d is the
current depth (the Python stack holds only opening parentheses, so only its
length matters). -/
def findTLEAux (content : List Char) (start : Nat) :
    List Char → Nat → Nat → Except ScanError (Option (List Char) × Nat)
  | [], _, d =>
    if d = 0 then .ok (none, content.length) else .error (.unmatchedOpen start)
  | c :: rest, i, d =>
    if c = '(' then findTLEAux content start rest (i + 1) (d + 1)
    else if c = ')' then
      if d = 0 then .error (.unmatchedClose i)
      else if d = 1 then .ok (some ((content.drop start).take (i + 1 - start)), i + 1)
      else findTLEAux content start rest (i + 1) (d - 1)
    else findTLEAux content start rest (i + 1) d

/-- Parse a balanced s-expression beginning at content[start]; on success
returns the expression substring and the index just past it (source
function find_top_level_expression). -/
def find_top_level_expression (content : List Char) (start : Nat) :
    Except ScanError (Option (List Char) × Nat) :=
  findTLEAux content start (content.drop start) start 0

/-- Is the first list a prefix of the second? -/
def isPrefixList : List Char → List Char → Bool
  | [], _ => true
  | _ :: _, [] => false
  | a :: as, b :: bs => decide (a = b) && isPrefixList as bs

/-- Loop of Python content.find(pat, idx): the list argument is the suffix
content.drop i. Returns the first index at or after idx where pat occurs. -/
def findSubAux (pat : List Char) : List Char → Nat → Option Nat
  | [], i => if isPrefixList pat [] then some i else none
  | c :: rest, i =>
    if isPrefixList pat (c :: rest) then some i else findSubAux pat rest (i + 1)

/-- Python content.find(pat, idx) (none instead of -1 when absent). -/
def findSubFrom (content pat : List Char) (idx : Nat) : Option Nat :=
  findSubAux pat (content.drop idx) idx

/-- Scan for the first block-comment terminator; returns the text after it. -/
def findCloseBC : List Char → Option (List Char)
  | [] => none
  | c :: rest =>
    match rest with
    | [] => none
    | d :: rest1 =>
      if c = '|' ∧ d = '#' then some rest1 else findCloseBC (d :: rest1)

/-- Fuel-driven removal of block comments, matching the non-greedy regular
expression of the source that deletes each start marker through the nearest
terminator; a start marker with no terminator anywhere matches nothing and
is left in place. Each unit of fuel pays for one removed comment (at least
four characters) or one retained character, so fuel equal to the length of
the list always suffices. -/
def stripBCAux : Nat → List Char → List Char
  | 0, s => s
  | _ + 1, [] => []
  | fuel + 1, c :: rest =>
    match rest with
    | [] => c :: stripBCAux fuel []
    | d :: rest1 =>
      if c = '#' ∧ d = '|' then
        match findCloseBC rest1 with
        | some rest2 => stripBCAux fuel rest2
        | none => c :: d :: rest1
      else c :: stripBCAux fuel (d :: rest1)

/-- Block-comment removal of parse_kmonad_config. -/
def stripBlockComments (s : List Char) : List Char := stripBCAux s.length s

/-- State machine for line-comment removal: outside a comment, a double
semicolon switches to comment mode; in comment mode characters are dropped
until the newline, which is kept. -/
def slcAux : Bool → List Char → List Char
  | _, [] => []
  | true, c :: rest => if c = '\n' then c :: slcAux false rest else slcAux true rest
  | false, ';' :: ';' :: rest => slcAux true rest
  | false, c :: rest => c :: slcAux false rest

/-- Line-comment removal of parse_kmonad_config. -/
def stripLineComments (s : List Char) : List Char := slcAux false s

/-- The comment stripper: block comments are removed first, then line
comments, as in parse_kmonad_config. -/
def stripComments (s : List Char) : List Char := stripLineComments (stripBlockComments s)

/-- The defsrc block keyword. -/
def defsrcKw : List Char := ['d', 'e', 'f', 's', 'r', 'c']

/-- The deflayer block keyword. -/
def deflayerKw : List Char := ['d', 'e', 'f', 'l', 'a', 'y', 'e', 'r']

/-- Python s.split(None, 1): skip leading whitespace, take the first
whitespace-free token, then the remainder after the following whitespace
run; an all-whitespace string gives the empty list. -/
def splitNoneOnce (s : List Char) : List (List Char) :=
  let t := s.dropWhile isSpace
  if t = [] then []
  else
    let tok := t.takeWhile (fun c => !(isSpace c))
    let rest := (t.dropWhile (fun c => !(isSpace c))).dropWhile isSpace
    if rest = [] then [tok] else [tok, rest]

/-- Loop of extract_defblocks over the scan cursor idx. Fuel counts loop
iterations; every iteration moves the cursor strictly forward and the
cursor can only start an iteration while strictly below the length of the
content, so content.length + 1 units always suffice. -/
def extract_defblocks_aux (content block_type : List Char) :
    Nat → Nat → List (Option (List Char) × List Char)
  | 0, _ => []
  | fuel + 1, idx =>
    match findSubFrom content ('(' :: block_type) idx with
    | none => []
    | some found =>
      match find_top_level_expression content found with
      | .error _ => extract_defblocks_aux content block_type fuel (found + 1)
      | .ok (none, next_idx) =>
        -- never reached: found points at an opening parenthesis
        -- (lemmas findSubFrom_found_open and find_at_open_not_none)
        extract_defblocks_aux content block_type fuel next_idx
      | .ok (some expr_string, next_idx) =>
        let inner := strip (((strip expr_string).drop 1).dropLast)
        match splitNoneOnce inner with
        | [block_keyword, rem0] =>
          let remainder := strip rem0
          if block_keyword = defsrcKw ∧ block_type = defsrcKw then
            (none, remainder) :: extract_defblocks_aux content block_type fuel next_idx
          else if block_keyword = deflayerKw ∧ block_type = deflayerKw then
            match splitNoneOnce remainder with
            | [] => extract_defblocks_aux content block_type fuel next_idx
            | [layer_name] =>
              (some layer_name, []) :: extract_defblocks_aux content block_type fuel next_idx
            | layer_name :: layer_body :: _ =>
              (some layer_name, layer_body) ::
                extract_defblocks_aux content block_type fuel next_idx
          else extract_defblocks_aux content block_type fuel next_idx
        | _ => extract_defblocks_aux content block_type fuel next_idx

/-- Extract all (defsrc ...) or (deflayer name ...) blocks from the text
(source function extract_defblocks); pairs of optional layer name and body
text. -/
def extract_defblocks (content block_type : List Char) :
    List (Option (List Char) × List Char) :=
  extract_defblocks_aux content block_type (content.length + 1) 0

/-- Loop of split_top_level_forms. The list argument is the unprocessed
suffix body.drop i; fuel counts loop iterations (every iteration moves the
cursor strictly forward, so body.length + 1 units always suffice). -/
def splitAux (body : List Char) : Nat → List Char → Nat → List (List Char)
  | 0, _, _ => []
  | _ + 1, [], _ => []
  | fuel + 1, c :: rest, i =>
    if isSpace c then splitAux body fuel rest (i + 1)
    else if c = '(' then
      match find_top_level_expression body i with
      | .ok (some expr_string, next_i) =>
        expr_string :: splitAux body fuel (body.drop next_i) next_i
      | .ok (none, next_i) =>
        -- never reached: the list argument is body.drop i, so the current
        -- opening parenthesis sits at index i (lemma find_at_open_not_none)
        splitAux body fuel (body.drop next_i) next_i
      | .error _ => [strip (body.drop i)]
    else
      let tok := (c :: rest).takeWhile (fun ch => !(isSpace ch))
      tok :: splitAux body fuel ((c :: rest).dropWhile (fun ch => !(isSpace ch)))
        (i + tok.length)

/-- Split a body string into its ordered top-level forms: bare tokens and
whole balanced sub-expressions (source function split_top_level_forms). -/
def split_top_level_forms (body : List Char) : List (List Char) :=
  splitAux body (body.length + 1) body 0

/-- parse_kmonad_config on in-memory text: strip comments, extract the
defsrc and deflayer blocks, split their bodies into forms, and build the
layer dictionary by iterated dict assignment (later blocks overwrite
earlier ones with the same name; only the first defsrc block is used). -/
def parse_kmonad_config (content0 : List Char) :
    List (List Char) × List (Option (List Char) × List (List Char)) :=
  let content := stripComments content0
  let defsrc_blocks := extract_defblocks content defsrcKw
  let defsrc_list :=
    match defsrc_blocks with
    | [] => []
    | (_, defsrc_body) :: _ => split_top_level_forms defsrc_body
  let deflayer_blocks := extract_defblocks content deflayerKw
  let layer_dict := deflayer_blocks.foldl
    (fun d b => dictInsert d b.1 (split_top_level_forms b.2)) []
  (defsrc_list, layer_dict)

/-- The transparent-placeholder literal. -/
def xxStr : List Char := ['X', 'X']

/-- The marker used for a (key, layer) pair whose layer is too short. -/
def naStr : List Char := ['(', 'N', '/', 'A', ')']

/-- get_short_label: look the trimmed form up in the mapping, defaulting to
the trimmed form itself. -/
def get_short_label (original : List Char) (mapping : List (List Char × List Char)) :
    List Char :=
  let stripped := strip original
  match lookupA mapping stripped with
  | some v => v
  | none => stripped

/-- Per-(key, layer) display computation of generate_single_grid_image: the
transparent placeholder is blanked, the label map is applied to the result,
and a placeholder produced by the map is blanked again. -/
def display_label (assigned : List Char) (expr_map : List (List Char × List Char)) :
    List Char :=
  let assigned1 := if assigned = xxStr then [] else assigned
  let short_assigned := get_short_label assigned1 expr_map
  if short_assigned = xxStr then [] else short_assigned

/-- The fixed ANSI-like physical geometry: canonical key name to (x, y). -/
def PHYSICAL_KEY_MAP : List (List Char × Nat × Nat) :=
  [(['e', 's', 'c'], 0, 0), (['1'], 1, 0), (['2'], 2, 0), (['3'], 3, 0),
   (['4'], 4, 0), (['5'], 5, 0), (['6'], 6, 0), (['7'], 7, 0), (['8'], 8, 0),
   (['9'], 9, 0), (['0'], 10, 0), (['-'], 11, 0), (['='], 12, 0),
   (['b', 's', 'p', 'c'], 13, 0),
   (['t', 'a', 'b'], 0, 1), (['q'], 1, 1), (['w'], 2, 1), (['e'], 3, 1),
   (['r'], 4, 1), (['t'], 5, 1), (['y'], 6, 1), (['u'], 7, 1), (['i'], 8, 1),
   (['o'], 9, 1), (['p'], 10, 1), (['['], 11, 1), ([']'], 12, 1),
   (['\\'], 13, 1),
   (['c', 'a', 'p', 's'], 0, 2), (['a'], 1, 2), (['s'], 2, 2), (['d'], 3, 2),
   (['f'], 4, 2), (['g'], 5, 2), (['h'], 6, 2), (['j'], 7, 2), (['k'], 8, 2),
   (['l'], 9, 2), ([';'], 10, 2), (['\''], 11, 2), (['r', 'e', 't'], 12, 2),
   (['l', 's', 'f', 't'], 0, 3), (['z'], 1, 3), (['x'], 2, 3), (['c'], 3, 3),
   (['v'], 4, 3), (['b'], 5, 3), (['n'], 6, 3), (['m'], 7, 3), ([','], 8, 3),
   (['.'], 9, 3), (['/'], 10, 3), (['r', 's', 'f', 't'], 11, 3),
   (['l', 'c', 't', 'l'], 0, 4), (['l', 'm', 'e', 't'], 1, 4),
   (['l', 'a', 'l', 't'], 2, 4), (['s', 'p', 'c'], 3, 4),
   (['r', 'a', 'l', 't'], 4, 4), (['r', 'm', 'e', 't'], 5, 4),
   (['c', 'm', 'p'], 6, 4), (['r', 'c', 't', 'l'], 7, 4)]

/-- The canonical physical key names. -/
def physicalKeyNames : List (List Char) := PHYSICAL_KEY_MAP.map Prod.fst

/-- Python enumerate starting at n. -/
def enumF {α : Type} : Nat → List α → List (Nat × α)
  | _, [] => []
  | n, a :: l => (n, a) :: enumF (n + 1) l

/-- Index-map construction of generate_single_grid_image: iterate over the
enumerated defsrc list and record the index of every name that is a
physical key; a later occurrence overwrites an earlier one. -/
def buildIndexMap : List (List Char × Nat) → List (Nat × List Char) → List (List Char × Nat)
  | m, [] => m
  | m, (i, k) :: rest =>
    buildIndexMap (if k ∈ physicalKeyNames then dictInsert m k i else m) rest

/-- The defsrc key-to-index mapping of generate_single_grid_image. -/
def defsrc_index_for_key (defsrc_list : List (List Char)) : List (List Char × Nat) :=
  buildIndexMap [] (enumF 0 defsrc_list)

/-- The form a layer assigns to source index i: the i-th form when the
layer is long enough, otherwise the not-applicable marker. -/
def assignedForm (layer_keys : List (List Char)) (i : Nat) : List Char :=
  layer_keys.getD i naStr

/-- The aligner's pairing for one physical key and one layer: none when the
key is absent from the defsrc index map (drawn as not in defsrc), otherwise
the layer's form at the key's source index. -/
def alignedForm (defsrc_list layer_keys : List (List Char)) (k : List Char) :
    Option (List Char) :=
  match lookupA (defsrc_index_for_key defsrc_list) k with
  | none => none
  | some i => some (assignedForm layer_keys i)

/-- Does the two-character sequence a b occur in the list? -/
def containsSeq2 (a b : Char) : List Char → Bool
  | c :: d :: rest => (decide (c = a) && decide (d = b)) || containsSeq2 a b (d :: rest)
  | _ => false

/-- Number of occurrences of a character. -/
def countCh (c : Char) : List Char → Nat
  | [] => 0
  | d :: rest => (if d = c then 1 else 0) + countCh c rest

/-- Depth-tracking balance check: true when every closing parenthesis has a
matching earlier opening one and the final depth is zero. -/
def scanBal : List Char → Nat → Bool
  | [], d => decide (d = 0)
  | c :: rest, d =>
    if c = '(' then scanBal rest (d + 1)
    else if c = ')' then
      if d = 0 then false else scanBal rest (d - 1)
    else scanBal rest d

/-- A buffer whose parentheses are balanced. -/
def isBalanced (l : List Char) : Bool := scanBal l 0

/-- A body assembled from (token, following whitespace) chunks. -/
def bodyChunks : List (List Char × List Char) → List Char
  | [] => []
  | (t, w) :: rest => t ++ w ++ bodyChunks rest

/-- The index paired with the last occurrence of a key in an enumerated
list. -/
def lastIdxFor : List (Nat × List Char) → List Char → Option Nat
  | [], _ => none
  | (i, k) :: rest, key =>
    match lastIdxFor rest key with
    | some j => some j
    | none => if k = key then some i else none

/-- The body of the last extracted block carrying the given layer name. -/
def lastBodyFor : List (Option (List Char) × List Char) → List Char → Option (List Char)
  | [], _ => none
  | b :: rest, name =>
    match lastBodyFor rest name with
    | some r => some r
    | none => if b.1 = some name then some b.2 else none

/-- Dropping one more element removes the head of the current suffix. -/
theorem drop_succ_of_drop_cons {l : List Char} {i : Nat} {c : Char} {rest : List Char}
    (h : l.drop i = c :: rest) : l.drop (i + 1) = rest := by
  have h2 : (l.drop i).drop 1 = l.drop (i + 1) := List.drop_drop 1 i l
  rw [← h2, h]
  rfl

/-- A nonempty suffix means the index is in range. -/
theorem lt_length_of_drop_cons {l : List Char} {i : Nat} {c : Char} {rest : List Char}
    (h : l.drop i = c :: rest) : i < l.length := by
  by_contra hge
  rw [List.drop_of_length_le (Nat.le_of_not_lt hge)] at h
  exact List.noConfusion h

/-- The head of the suffix l.drop i is the element at index i. -/
theorem get_of_drop_cons : ∀ (l : List Char) (i : Nat) (c : Char) (rest : List Char),
    l.drop i = c :: rest → ∃ h : i < l.length, l.get ⟨i, h⟩ = c := by
  intro l
  induction l with
  | nil => intro i c rest h; rw [List.drop_nil] at h; exact List.noConfusion h
  | cons a l ih =>
    intro i c rest h
    cases i with
    | zero =>
      rw [List.drop_zero] at h
      cases h
      exact ⟨Nat.succ_pos _, rfl⟩
    | succ j =>
      have h' : l.drop j = c :: rest := h
      obtain ⟨hj, hc⟩ := ih j c rest h'
      exact ⟨Nat.succ_lt_succ hj, hc⟩

/-- The suffix at an in-range index starts with the element there. -/
theorem drop_cons_of_get : ∀ (l : List Char) (i : Nat) (h : i < l.length),
    l.drop i = l.get ⟨i, h⟩ :: l.drop (i + 1) := by
  intro l
  induction l with
  | nil => intro i h; exact absurd h (Nat.not_lt_zero i)
  | cons a l ih =>
    intro i h
    cases i with
    | zero => rfl
    | succ j => exact ih j (Nat.lt_of_succ_lt_succ h)

/-- countCh distributes over append. -/
theorem countCh_append (c : Char) : ∀ (a b : List Char),
    countCh c (a ++ b) = countCh c a + countCh c b := by
  intro a b
  induction a with
  | nil => simp [countCh]
  | cons x a ih => simp [countCh, ih]; omega

/-- countCh on a replicated list. -/
theorem countCh_replicate (c a : Char) : ∀ n : Nat,
    countCh c (List.replicate n a) = if a = c then n else 0 := by
  intro n
  induction n with
  | zero => simp [countCh]
  | succ n ih =>
    rw [List.replicate_succ]
    simp only [countCh, ih]
    by_cases h : a = c
    · simp [h]
      omega
    · simp [h]

/-- A character absent from a list is not counted. -/
theorem countCh_eq_zero (c : Char) : ∀ (l : List Char), (∀ x ∈ l, x ≠ c) →
    countCh c l = 0 := by
  intro l
  induction l with
  | nil => intro _; rfl
  | cons a l ih =>
    intro h
    have ha : a ≠ c := h a (List.mem_cons_self a l)
    simp only [countCh, if_neg ha, Nat.zero_add]
    exact ih (fun x hx => h x (List.mem_cons_of_mem a hx))

/-- takeWhile runs past a block of elements all satisfying the predicate. -/
theorem takeWhile_append_all (p : Char → Bool) : ∀ (t r : List Char),
    (∀ x ∈ t, p x = true) → (t ++ r).takeWhile p = t ++ r.takeWhile p := by
  intro t r
  induction t with
  | nil => intro _; rfl
  | cons a t ih =>
    intro h
    have ha : p a = true := h a (List.mem_cons_self a t)
    simp only [List.cons_append, List.takeWhile_cons, ha]
    rw [ih (fun x hx => h x (List.mem_cons_of_mem a hx))]
    simp

/-- dropWhile skips a block of elements all satisfying the predicate. -/
theorem dropWhile_append_all (p : Char → Bool) : ∀ (t r : List Char),
    (∀ x ∈ t, p x = true) → (t ++ r).dropWhile p = r.dropWhile p := by
  intro t r
  induction t with
  | nil => intro _; rfl
  | cons a t ih =>
    intro h
    have ha : p a = true := h a (List.mem_cons_self a t)
    simp only [List.cons_append, List.dropWhile_cons, ha]
    exact ih (fun x hx => h x (List.mem_cons_of_mem a hx))

/-- dropWhile is the identity when no element at the front satisfies the
predicate. -/
theorem dropWhile_eq_self_of (p : Char → Bool) : ∀ (l : List Char),
    (∀ x ∈ l, p x = false) → l.dropWhile p = l := by
  intro l h
  cases l with
  | nil => rfl
  | cons a l =>
    have ha : p a = false := h a (List.mem_cons_self a l)
    simp [List.dropWhile_cons, ha]

/-- strip is the identity on whitespace-free lists. -/
theorem strip_eq_self (t : List Char) (h : ∀ x ∈ t, isSpace x = false) :
    strip t = t := by
  unfold strip
  rw [dropWhile_eq_self_of isSpace t h]
  rw [dropWhile_eq_self_of isSpace t.reverse (fun x hx => h x (List.mem_reverse.mp hx))]
  exact List.reverse_reverse t

/-- Characterisation of a successful scan: the returned index lies past the
start and within the buffer, the returned substring is the slice from start
to that index, the processed segment closes exactly d more parentheses than
it opens, and the character before the returned index is a closing
parenthesis. -/
theorem findTLEAux_ok_some (content : List Char) (start : Nat) :
    ∀ (rem : List Char) (i d : Nat), rem = content.drop i → start ≤ i →
    ∀ (e : List Char) (n : Nat),
      findTLEAux content start rem i d = .ok (some e, n) →
      i < n ∧ n ≤ content.length ∧
      e = (content.drop start).take (n - start) ∧
      countCh ')' (rem.take (n - i)) = countCh '(' (rem.take (n - i)) + d ∧
      ∃ hn : n - 1 < content.length, content.get ⟨n - 1, hn⟩ = ')' := by
  intro rem
  induction rem with
  | nil =>
    intro i d _ _ e n h
    by_cases hd : d = 0 <;> simp [findTLEAux, hd] at h
  | cons c rest ih =>
    intro i d hrem hsi e n h
    have hrest : rest = content.drop (i + 1) := (drop_succ_of_drop_cons hrem.symm).symm
    have hilen : i < content.length := lt_length_of_drop_cons hrem.symm
    by_cases hc : c = '('
    · rw [findTLEAux, if_pos hc] at h
      obtain ⟨h1, h2, h3, h4, h5⟩ :=
        ih (i + 1) (d + 1) hrest (Nat.le_succ_of_le hsi) e n h
      refine ⟨Nat.lt_of_succ_lt h1, h2, h3, ?_, h5⟩
      have hni : n - i = (n - (i + 1)) + 1 := by omega
      rw [hni, List.take_succ_cons]
      simp [countCh, hc]
      omega
    · by_cases hc2 : c = ')'
      · rw [findTLEAux, if_neg hc, if_pos hc2] at h
        by_cases hd0 : d = 0
        · rw [if_pos hd0] at h
          exact Except.noConfusion h
        · rw [if_neg hd0] at h
          by_cases hd1 : d = 1
          · rw [if_pos hd1] at h
            have hout := h
            injection hout with hpair
            injection hpair with hfst hsnd
            injection hfst with he
            subst hsnd
            refine ⟨Nat.lt_succ_self i, hilen, he.symm, ?_, ?_⟩
            · have hni : i + 1 - i = 1 := by omega
              rw [hni]
              have ht : (c :: rest).take 1 = [c] := rfl
              rw [ht]
              simp [countCh, hc2, hd1]
            · have hn1 : i + 1 - 1 = i := by omega
              rw [hn1]
              obtain ⟨hlt, hcc⟩ := get_of_drop_cons content i c rest hrem.symm
              exact ⟨hlt, by rw [hcc, hc2]⟩
          · rw [if_neg hd1] at h
            obtain ⟨h1, h2, h3, h4, h5⟩ :=
              ih (i + 1) (d - 1) hrest (Nat.le_succ_of_le hsi) e n h
            refine ⟨Nat.lt_of_succ_lt h1, h2, h3, ?_, h5⟩
            have hni : n - i = (n - (i + 1)) + 1 := by omega
            rw [hni, List.take_succ_cons]
            simp [countCh, hc2]
            omega
      · rw [findTLEAux, if_neg hc, if_neg hc2] at h
        obtain ⟨h1, h2, h3, h4, h5⟩ :=
          ih (i + 1) d hrest (Nat.le_succ_of_le hsi) e n h
        refine ⟨Nat.lt_of_succ_lt h1, h2, h3, ?_, h5⟩
        have hni : n - i = (n - (i + 1)) + 1 := by omega
        rw [hni, List.take_succ_cons]
        simp [countCh, hc, hc2]
        omega

/-- During a successful scan started at positive depth, the depth stays
positive strictly before the returned index: every proper prefix of the
processed segment closes fewer than opens-plus-depth parentheses. -/
theorem findTLEAux_ok_min (content : List Char) (start : Nat) :
    ∀ (rem : List Char) (i d : Nat), 1 ≤ d →
    ∀ (e : List Char) (n : Nat),
      findTLEAux content start rem i d = .ok (some e, n) →
      ∀ m, i ≤ m → m < n →
        countCh ')' (rem.take (m - i)) < countCh '(' (rem.take (m - i)) + d := by
  intro rem
  induction rem with
  | nil =>
    intro i d _ e n h
    by_cases hd : d = 0 <;> simp [findTLEAux, hd] at h
  | cons c rest ih =>
    intro i d hd e n h m him hmn
    by_cases hmi : m = i
    · subst hmi
      have ht : (c :: rest).take (m - m) = [] := by
        rw [Nat.sub_self]
        rfl
      rw [ht]
      simp [countCh]
      omega
    · have him1 : i + 1 ≤ m := by omega
      have hni : m - i = (m - (i + 1)) + 1 := by omega
      by_cases hc : c = '('
      · rw [findTLEAux, if_pos hc] at h
        have := ih (i + 1) (d + 1) (by omega) e n h m him1 hmn
        rw [hni, List.take_succ_cons]
        simp [countCh, hc]
        omega
      · by_cases hc2 : c = ')'
        · rw [findTLEAux, if_neg hc, if_pos hc2] at h
          by_cases hd0 : d = 0
          · omega
          · rw [if_neg hd0] at h
            by_cases hd1 : d = 1
            · rw [if_pos hd1] at h
              injection h with hpair
              injection hpair with _ hsnd
              omega
            · rw [if_neg hd1] at h
              have := ih (i + 1) (d - 1) (by omega) e n h m him1 hmn
              rw [hni, List.take_succ_cons]
              simp [countCh, hc2]
              omega
        · rw [findTLEAux, if_neg hc, if_neg hc2] at h
          have := ih (i + 1) d hd e n h m him1 hmn
          rw [hni, List.take_succ_cons]
          simp [countCh, hc, hc2]
          omega

/-- The scan succeeds whenever the depth is positive and the remaining
suffix closes at least depth-many more parentheses than it opens. -/
theorem findTLEAux_succeeds (content : List Char) (start : Nat) :
    ∀ (rem : List Char) (i d : Nat), 1 ≤ d →
      countCh '(' rem + d ≤ countCh ')' rem →
      ∃ e n, findTLEAux content start rem i d = .ok (some e, n) := by
  intro rem
  induction rem with
  | nil =>
    intro i d hd hcnt
    simp [countCh] at hcnt
    omega
  | cons c rest ih =>
    intro i d hd hcnt
    by_cases hc : c = '('
    · have hcnt' : countCh '(' rest + (d + 1) ≤ countCh ')' rest := by
        simp [countCh, hc] at hcnt
        omega
      obtain ⟨e, n, hok⟩ := ih (i + 1) (d + 1) (by omega) hcnt'
      exact ⟨e, n, by rw [findTLEAux, if_pos hc]; exact hok⟩
    · by_cases hc2 : c = ')'
      · by_cases hd1 : d = 1
        · subst hd1
          refine ⟨(content.drop start).take (i + 1 - start), i + 1, ?_⟩
          rw [findTLEAux, if_neg hc, if_pos hc2]
          rfl
        · have hcnt' : countCh '(' rest + (d - 1) ≤ countCh ')' rest := by
            simp [countCh, hc2] at hcnt
            omega
          obtain ⟨e, n, hok⟩ := ih (i + 1) (d - 1) (by omega) hcnt'
          refine ⟨e, n, ?_⟩
          rw [findTLEAux, if_neg hc, if_pos hc2, if_neg (by omega : ¬d = 0),
            if_neg hd1]
          exact hok
      · have hcnt' : countCh '(' rest + d ≤ countCh ')' rest := by
          simp [countCh, hc, hc2] at hcnt
          omega
        obtain ⟨e, n, hok⟩ := ih (i + 1) d hd hcnt'
        exact ⟨e, n, by rw [findTLEAux, if_neg hc, if_neg hc2]; exact hok⟩

/-- An unmatched-close error is raised at an in-range index holding a
closing parenthesis, with the depth having returned exactly to zero there. -/
theorem findTLEAux_err_close (content : List Char) (start : Nat) :
    ∀ (rem : List Char) (i d : Nat), rem = content.drop i →
    ∀ j, findTLEAux content start rem i d = .error (.unmatchedClose j) →
      i ≤ j ∧ (∃ hj : j < content.length, content.get ⟨j, hj⟩ = ')') ∧
      countCh ')' (rem.take (j - i)) = countCh '(' (rem.take (j - i)) + d := by
  intro rem
  induction rem with
  | nil =>
    intro i d _ j h
    by_cases hd : d = 0 <;> simp [findTLEAux, hd] at h
  | cons c rest ih =>
    intro i d hrem j h
    have hrest : rest = content.drop (i + 1) := (drop_succ_of_drop_cons hrem.symm).symm
    by_cases hc : c = '('
    · rw [findTLEAux, if_pos hc] at h
      obtain ⟨h1, h2, h3⟩ := ih (i + 1) (d + 1) hrest j h
      refine ⟨by omega, h2, ?_⟩
      have hni : j - i = (j - (i + 1)) + 1 := by omega
      rw [hni, List.take_succ_cons]
      simp [countCh, hc]
      omega
    · by_cases hc2 : c = ')'
      · rw [findTLEAux, if_neg hc, if_pos hc2] at h
        by_cases hd0 : d = 0
        · rw [if_pos hd0] at h
          injection h with herr
          injection herr with hj
          subst hj
          refine ⟨Nat.le_refl i, ?_, ?_⟩
          · obtain ⟨hlt, hcc⟩ := get_of_drop_cons content i c rest hrem.symm
            exact ⟨hlt, by rw [hcc, hc2]⟩
          · rw [Nat.sub_self]
            simp [countCh, hd0]
        · rw [if_neg hd0] at h
          by_cases hd1 : d = 1
          · rw [if_pos hd1] at h
            exact Except.noConfusion h
          · rw [if_neg hd1] at h
            obtain ⟨h1, h2, h3⟩ := ih (i + 1) (d - 1) hrest j h
            refine ⟨by omega, h2, ?_⟩
            have hni : j - i = (j - (i + 1)) + 1 := by omega
            rw [hni, List.take_succ_cons]
            simp [countCh, hc2]
            omega
      · rw [findTLEAux, if_neg hc, if_neg hc2] at h
        obtain ⟨h1, h2, h3⟩ := ih (i + 1) d hrest j h
        refine ⟨by omega, h2, ?_⟩
        have hni : j - i = (j - (i + 1)) + 1 := by omega
        rw [hni, List.take_succ_cons]
        simp [countCh, hc, hc2]
        omega

/-- An unmatched-open error names the original start offset and means the
end of the buffer was reached with the depth still positive. -/
theorem findTLEAux_err_open (content : List Char) (start : Nat) :
    ∀ (rem : List Char) (i d : Nat),
    ∀ t, findTLEAux content start rem i d = .error (.unmatchedOpen t) →
      t = start ∧ countCh ')' rem < countCh '(' rem + d := by
  intro rem
  induction rem with
  | nil =>
    intro i d t h
    by_cases hd : d = 0
    · simp [findTLEAux, hd] at h
    · simp only [findTLEAux, if_neg hd] at h
      injection h with herr
      injection herr with ht
      exact ⟨ht.symm, by simp [countCh]; omega⟩
  | cons c rest ih =>
    intro i d t h
    by_cases hc : c = '('
    · rw [findTLEAux, if_pos hc] at h
      obtain ⟨h1, h2⟩ := ih (i + 1) (d + 1) t h
      refine ⟨h1, ?_⟩
      simp [countCh, hc]
      omega
    · by_cases hc2 : c = ')'
      · rw [findTLEAux, if_neg hc, if_pos hc2] at h
        by_cases hd0 : d = 0
        · rw [if_pos hd0] at h
          injection h with herr
          exact ScanError.noConfusion herr
        · rw [if_neg hd0] at h
          by_cases hd1 : d = 1
          · rw [if_pos hd1] at h
            exact Except.noConfusion h
          · rw [if_neg hd1] at h
            obtain ⟨h1, h2⟩ := ih (i + 1) (d - 1) t h
            refine ⟨h1, ?_⟩
            simp [countCh, hc2]
            omega
      · rw [findTLEAux, if_neg hc, if_neg hc2] at h
        obtain ⟨h1, h2⟩ := ih (i + 1) d t h
        refine ⟨h1, ?_⟩
        simp [countCh, hc, hc2]
        omega

/-- The scan only returns the no-expression result from depth zero, at the
end of the buffer. -/
theorem findTLEAux_ok_none (content : List Char) (start : Nat) :
    ∀ (rem : List Char) (i d : Nat),
    ∀ n, findTLEAux content start rem i d = .ok (none, n) →
      d = 0 ∧ n = content.length := by
  intro rem
  induction rem with
  | nil =>
    intro i d n h
    by_cases hd : d = 0
    · simp only [findTLEAux, if_pos hd] at h
      injection h with hpair
      injection hpair with _ hsnd
      exact ⟨hd, hsnd.symm⟩
    · simp [findTLEAux, hd] at h
  | cons c rest ih =>
    intro i d n h
    by_cases hc : c = '('
    · rw [findTLEAux, if_pos hc] at h
      obtain ⟨h1, _⟩ := ih (i + 1) (d + 1) n h
      exact absurd h1 (Nat.succ_ne_zero d)
    · by_cases hc2 : c = ')'
      · rw [findTLEAux, if_neg hc, if_pos hc2] at h
        by_cases hd0 : d = 0
        · rw [if_pos hd0] at h
          exact Except.noConfusion h
        · rw [if_neg hd0] at h
          by_cases hd1 : d = 1
          · rw [if_pos hd1] at h
            injection h with hpair
            injection hpair with hfst
            exact Option.noConfusion hfst
          · rw [if_neg hd1] at h
            obtain ⟨h1, _⟩ := ih (i + 1) (d - 1) n h
            omega
      · rw [findTLEAux, if_neg hc, if_neg hc2] at h
        exact ih (i + 1) d n h

/-- Started at an opening parenthesis, the scanner never returns the
no-expression result. -/
theorem find_at_open_not_none (content : List Char) (start : Nat)
    (h : start < content.length) (hc : content.get ⟨start, h⟩ = '(') :
    ∀ n, find_top_level_expression content start ≠ .ok (none, n) := by
  intro n hcontra
  unfold find_top_level_expression at hcontra
  rw [drop_cons_of_get content start h, hc] at hcontra
  rw [findTLEAux, if_pos rfl] at hcontra
  obtain ⟨h1, _⟩ := findTLEAux_ok_none content start _ (start + 1) 1 n hcontra
  exact Nat.one_ne_zero h1

/-- A successful prefix test against a cons pattern exposes the head. -/
theorem isPrefixList_cons (a : Char) (p l : List Char)
    (h : isPrefixList (a :: p) l = true) :
    ∃ t, l = a :: t ∧ isPrefixList p t = true := by
  cases l with
  | nil => exact Bool.noConfusion h
  | cons b t =>
    rw [isPrefixList, Bool.and_eq_true] at h
    obtain ⟨h1, h2⟩ := h
    exact ⟨t, by rw [of_decide_eq_true h1], h2⟩

/-- A successful substring search lands at or after the cursor, on an
occurrence of the pattern. -/
theorem findSubAux_spec (pat : List Char) :
    ∀ (rem : List Char) (i j : Nat), findSubAux pat rem i = some j →
    i ≤ j ∧ isPrefixList pat (rem.drop (j - i)) = true := by
  intro rem
  induction rem with
  | nil =>
    intro i j h
    rw [findSubAux] at h
    by_cases hp : isPrefixList pat [] = true
    · rw [if_pos hp] at h
      injection h with hij
      subst hij
      refine ⟨Nat.le_refl i, ?_⟩
      rw [Nat.sub_self]
      exact hp
    · rw [if_neg hp] at h
      exact Option.noConfusion h
  | cons c rest ih =>
    intro i j h
    rw [findSubAux] at h
    by_cases hp : isPrefixList pat (c :: rest) = true
    · rw [if_pos hp] at h
      injection h with hij
      subst hij
      refine ⟨Nat.le_refl i, ?_⟩
      rw [Nat.sub_self, List.drop_zero]
      exact hp
    · rw [if_neg hp] at h
      obtain ⟨h1, h2⟩ := ih (i + 1) j h
      refine ⟨by omega, ?_⟩
      have hstep : (c :: rest).drop (j - i) = rest.drop (j - (i + 1)) := by
        have hji : j - i = (j - (i + 1)) + 1 := by omega
        rw [hji]
        rfl
      rw [hstep]
      exact h2

/-- A block found by searching for an opening parenthesis followed by a
keyword starts at an opening parenthesis; this is what makes the
no-expression result of the scanner unreachable inside the block extractor
and the form splitter. -/
theorem findSubFrom_found_open (content pat : List Char) (idx found : Nat)
    (h : findSubFrom content ('(' :: pat) idx = some found) :
    ∃ hf : found < content.length, content.get ⟨found, hf⟩ = '(' := by
  unfold findSubFrom at h
  obtain ⟨h1, h2⟩ := findSubAux_spec ('(' :: pat) (content.drop idx) idx found h
  have hdd : (content.drop idx).drop (found - idx) = content.drop found := by
    rw [List.drop_drop]
    congr 1
    omega
  rw [hdd] at h2
  obtain ⟨t, ht, _⟩ := isPrefixList_cons '(' pat (content.drop found) h2
  exact get_of_drop_cons content found '(' t ht

/-- Specification of a successful top-level scan: the returned substring is
the slice from start to the returned index, it has equally many opening and
closing parentheses, and it ends just after a closing parenthesis. -/
theorem find_ok_spec (content : List Char) (start : Nat) (e : List Char) (n : Nat)
    (h : find_top_level_expression content start = .ok (some e, n)) :
    start < n ∧ n ≤ content.length ∧
    e = (content.drop start).take (n - start) ∧
    countCh '(' e = countCh ')' e ∧
    ∃ hn : n - 1 < content.length, content.get ⟨n - 1, hn⟩ = ')' := by
  obtain ⟨h1, h2, h3, h4, h5⟩ := findTLEAux_ok_some content start (content.drop start)
    start 0 rfl (Nat.le_refl start) e n h
  refine ⟨h1, h2, h3, ?_, h5⟩
  rw [h3]
  omega

/-- A balance-checked list closes exactly depth-many more parentheses than
it opens, and no prefix closes more than it opens plus the depth. -/
theorem scanBal_spec : ∀ (l : List Char) (d : Nat), scanBal l d = true →
    countCh ')' l = countCh '(' l + d ∧
    ∀ j, countCh ')' (l.take j) ≤ countCh '(' (l.take j) + d := by
  intro l
  induction l with
  | nil =>
    intro d h
    simp [scanBal] at h
    subst h
    exact ⟨rfl, fun j => by simp [countCh]⟩
  | cons c rest ih =>
    intro d h
    by_cases hc : c = '('
    · rw [scanBal, if_pos hc] at h
      obtain ⟨h1, h2⟩ := ih (d + 1) h
      constructor
      · simp [countCh, hc]
        omega
      · intro j
        cases j with
        | zero => simp [countCh]
        | succ j =>
          rw [List.take_succ_cons]
          have := h2 j
          simp [countCh, hc]
          omega
    · by_cases hc2 : c = ')'
      · rw [scanBal, if_neg hc, if_pos hc2] at h
        by_cases hd0 : d = 0
        · rw [if_pos hd0] at h
          exact Bool.noConfusion h
        · rw [if_neg hd0] at h
          obtain ⟨h1, h2⟩ := ih (d - 1) h
          constructor
          · simp [countCh, hc2]
            omega
          · intro j
            cases j with
            | zero => simp [countCh]
            | succ j =>
              rw [List.take_succ_cons]
              have := h2 j
              simp [countCh, hc2]
              omega
      · rw [scanBal, if_neg hc, if_neg hc2] at h
        obtain ⟨h1, h2⟩ := ih d h
        constructor
        · simp [countCh, hc, hc2]
          omega
        · intro j
          cases j with
          | zero => simp [countCh]
          | succ j =>
            rw [List.take_succ_cons]
            have := h2 j
            simp [countCh, hc, hc2]
            omega

/-- C1: for every buffer whose parentheses are balanced and every start
offset pointing at an opening parenthesis, find_top_level_expression
succeeds and returns the substring from the start offset through the
matching closing parenthesis inclusive — a substring with equally many
opening and closing parentheses, whose last character is the closing
parenthesis at index n - 1 — together with the offset n immediately after
that closing parenthesis. -/
theorem c1_scanner_balanced_success (content : List Char) (start : Nat)
    (hb : isBalanced content = true) (h1 : start < content.length)
    (h2 : content.get ⟨start, h1⟩ = '(') :
    ∃ e n, find_top_level_expression content start = .ok (some e, n) ∧
      e = (content.drop start).take (n - start) ∧
      countCh '(' e = countCh ')' e ∧
      n = start + e.length ∧
      ∃ hn : n - 1 < content.length, content.get ⟨n - 1, hn⟩ = ')' := by
  have hsplit : content.drop start = '(' :: content.drop (start + 1) := by
    rw [drop_cons_of_get content start h1, h2]
  obtain ⟨hbal, hpre⟩ := scanBal_spec content 0 hb
  have hcount : countCh '(' (content.drop (start + 1)) + 1 ≤
      countCh ')' (content.drop (start + 1)) := by
    have htd : content = content.take start ++ content.drop start :=
      (List.take_append_drop start content).symm
    have hco : countCh '(' content =
        countCh '(' (content.take start) + countCh '(' (content.drop start) := by
      conv_lhs => rw [htd]
      exact countCh_append '(' _ _
    have hcc : countCh ')' content =
        countCh ')' (content.take start) + countCh ')' (content.drop start) := by
      conv_lhs => rw [htd]
      exact countCh_append ')' _ _
    have hptake := hpre start
    have hdo : countCh '(' (content.drop start) =
        1 + countCh '(' (content.drop (start + 1)) := by
      rw [hsplit]
      simp [countCh]
    have hdc : countCh ')' (content.drop start) =
        countCh ')' (content.drop (start + 1)) := by
      rw [hsplit]
      simp [countCh]
    omega
  obtain ⟨e, n, hok⟩ := findTLEAux_succeeds content start (content.drop (start + 1))
    (start + 1) 1 (Nat.le_refl 1) hcount
  have hfind : find_top_level_expression content start = .ok (some e, n) := by
    unfold find_top_level_expression
    rw [hsplit, findTLEAux, if_pos rfl]
    exact hok
  obtain ⟨hn1, hn2, hslice, hcnt, hlast⟩ := find_ok_spec content start e n hfind
  refine ⟨e, n, hfind, hslice, hcnt, ?_, hlast⟩
  rw [hslice]
  simp
  omega

/-- Witness for c1_scanner_balanced_success on the buffer x(a)y at start
offset 1. -/
theorem c1_scanner_balanced_success_witness :
    ∃ e n,
      find_top_level_expression ['x', '(', 'a', ')', 'y'] 1 = .ok (some e, n) ∧
      e = ((['x', '(', 'a', ')', 'y'] : List Char).drop 1).take (n - 1) ∧
      countCh '(' e = countCh ')' e ∧
      n = 1 + e.length ∧
      ∃ hn : n - 1 < (['x', '(', 'a', ')', 'y'] : List Char).length,
        (['x', '(', 'a', ')', 'y'] : List Char).get ⟨n - 1, hn⟩ = ')' :=
  c1_scanner_balanced_success ['x', '(', 'a', ')', 'y'] 1 (by decide) (by decide)
    (by decide)

/-- C5: started at an opening parenthesis, the scanner fails in exactly the
two declared ways — an unmatched-close error carries an in-range offset
holding a closing parenthesis where the depth has returned to zero, and an
unmatched-open error carries the original start offset and means the end of
the buffer was reached with depth still positive — and every non-error
result is a proper success carrying an expression. -/
theorem c5_scanner_error_cases (content : List Char) (start : Nat)
    (h1 : start < content.length) (h2 : content.get ⟨start, h1⟩ = '(') :
    (∀ eo n, find_top_level_expression content start = .ok (eo, n) →
      ∃ e, eo = some e) ∧
    (∀ i, find_top_level_expression content start = .error (.unmatchedClose i) →
      ∃ hi : i < content.length, content.get ⟨i, hi⟩ = ')' ∧
        countCh ')' ((content.drop start).take (i - start)) =
          countCh '(' ((content.drop start).take (i - start))) ∧
    (∀ s, find_top_level_expression content start = .error (.unmatchedOpen s) →
      s = start ∧
      countCh ')' (content.drop start) < countCh '(' (content.drop start)) := by
  have hsplit : content.drop start = '(' :: content.drop (start + 1) := by
    rw [drop_cons_of_get content start h1, h2]
  refine ⟨?_, ?_, ?_⟩
  · intro eo n hok
    cases eo with
    | some e => exact ⟨e, rfl⟩
    | none => exact absurd hok (find_at_open_not_none content start h1 h2 n)
  · intro i herr
    unfold find_top_level_expression at herr
    rw [hsplit, findTLEAux, if_pos rfl] at herr
    obtain ⟨hij, ⟨hilt, hic⟩, hcnt⟩ := findTLEAux_err_close content start
      (content.drop (start + 1)) (start + 1) 1
      (drop_succ_of_drop_cons hsplit).symm i herr
    refine ⟨hilt, hic, ?_⟩
    have hni : i - start = (i - (start + 1)) + 1 := by omega
    rw [hsplit, hni, List.take_succ_cons]
    simp [countCh]
    omega
  · intro s herr
    unfold find_top_level_expression at herr
    rw [hsplit, findTLEAux, if_pos rfl] at herr
    obtain ⟨hs, hcnt⟩ := findTLEAux_err_open content start
      (content.drop (start + 1)) (start + 1) 1 s herr
    refine ⟨hs, ?_⟩
    rw [hsplit]
    simp [countCh]
    omega

/-- Witness for c5_scanner_error_cases on the buffer (ab at start offset
0 (an unmatched-open failure) — the hypotheses are discharged at a concrete
input. -/
theorem c5_scanner_error_cases_witness :
    (∀ eo n, find_top_level_expression ['(', 'a', 'b'] 0 = .ok (eo, n) →
      ∃ e, eo = some e) ∧
    (∀ i, find_top_level_expression ['(', 'a', 'b'] 0 = .error (.unmatchedClose i) →
      ∃ hi : i < (['(', 'a', 'b'] : List Char).length,
        (['(', 'a', 'b'] : List Char).get ⟨i, hi⟩ = ')' ∧
        countCh ')' (((['(', 'a', 'b'] : List Char).drop 0).take (i - 0)) =
          countCh '(' (((['(', 'a', 'b'] : List Char).drop 0).take (i - 0))) ∧
    (∀ s, find_top_level_expression ['(', 'a', 'b'] 0 = .error (.unmatchedOpen s) →
      s = 0 ∧
      countCh ')' ((['(', 'a', 'b'] : List Char).drop 0) <
        countCh '(' ((['(', 'a', 'b'] : List Char).drop 0)) :=
  c5_scanner_error_cases ['(', 'a', 'b'] 0 (by decide) (by decide)

/-- Dropping the head preserves the absence of a two-character sequence. -/
theorem containsSeq2_tail {a b c : Char} {rest : List Char}
    (h : containsSeq2 a b (c :: rest) = false) : containsSeq2 a b rest = false := by
  cases rest with
  | nil => rfl
  | cons d r =>
    rw [containsSeq2, Bool.or_eq_false_iff] at h
    exact h.2

/-- Without the terminator sequence, the terminator scan finds nothing. -/
theorem findCloseBC_none : ∀ l : List Char, containsSeq2 '|' '#' l = false →
    findCloseBC l = none := by
  intro l
  induction l with
  | nil => intro _; rfl
  | cons c rest ih =>
    intro h
    cases rest with
    | nil => rfl
    | cons d r =>
      rw [findCloseBC]
      have hnot : ¬(c = '|' ∧ d = '#') := by
        intro ⟨hc, hd⟩
        rw [containsSeq2, hc, hd] at h
        simp at h
      rw [if_neg hnot]
      exact ih (containsSeq2_tail h)

/-- stripBCAux on the empty list is the empty list, for any fuel. -/
theorem stripBCAux_nil : ∀ fuel : Nat, stripBCAux fuel [] = [] := by
  intro fuel
  cases fuel <;> rfl

/-- Without the terminator sequence anywhere, block-comment removal leaves
the text unchanged (an unterminated start marker matches nothing). -/
theorem stripBCAux_id : ∀ (fuel : Nat) (s : List Char),
    containsSeq2 '|' '#' s = false → stripBCAux fuel s = s := by
  intro fuel
  induction fuel with
  | zero => intro s _; rfl
  | succ fuel ih =>
    intro s h
    cases s with
    | nil => rfl
    | cons c rest =>
      cases rest with
      | nil =>
        rw [stripBCAux, stripBCAux_nil]
      | cons d r =>
        rw [stripBCAux]
        by_cases hcd : c = '#' ∧ d = '|'
        · rw [if_pos hcd]
          have hr : containsSeq2 '|' '#' r = false :=
            containsSeq2_tail (containsSeq2_tail h)
          rw [findCloseBC_none r hr]
        · rw [if_neg hcd]
          rw [ih (d :: r) (containsSeq2_tail h)]

/-- C2 counterexample: on the text a #| b, which contains a block-comment
start marker with no matching end marker, the comment stripper leaves the
text unchanged instead of removing everything from the marker to the end of
the text. -/
theorem c2_counterexample :
    stripBlockComments ['a', ' ', '#', '|', ' ', 'b'] =
      ['a', ' ', '#', '|', ' ', 'b'] ∧
    stripBlockComments ['a', ' ', '#', '|', ' ', 'b'] ≠ ['a', ' '] := by
  constructor
  · rfl
  · intro h
    exact List.noConfusion (List.noConfusion h (fun _ h1 => List.noConfusion h1
      (fun _ h2 => h2)))

/-- C2 amended: for every input text that contains a block-comment start
marker but no end marker anywhere, the comment stripper leaves the text
unchanged — an unterminated block comment is left in place, not removed to
the end of the text. -/
theorem c2_amended_unterminated_kept (s : List Char)
    (_hstart : containsSeq2 '#' '|' s = true)
    (hnoend : containsSeq2 '|' '#' s = false) :
    stripBlockComments s = s :=
  stripBCAux_id s.length s hnoend

/-- Witness for c2_amended_unterminated_kept on the text a#|b. -/
theorem c2_amended_unterminated_kept_witness :
    stripBlockComments ['a', '#', '|', 'b'] = ['a', '#', '|', 'b'] :=
  c2_amended_unterminated_kept ['a', '#', '|', 'b'] (by decide) (by decide)

/-- C3 counterexample: with the label map that sends the empty string to
hi, the transparent placeholder XX is first blanked and then resolved by
the label map to hi, so the display string is not empty. -/
theorem c3_counterexample :
    display_label xxStr [([], ['h', 'i'])] = ['h', 'i'] ∧
    (['h', 'i'] : List Char) ≠ [] := by
  constructor
  · rfl
  · intro h
    exact List.noConfusion h

/-- C3 amended: for every label map, (a) provided the map has no entry for
the empty string, a raw form equal to the transparent placeholder XX is
displayed as the empty string, and (b) unconditionally, whenever label
resolution of the blanked form produces the placeholder text, the
displayed string is again empty — the normalisation is applied both before
and after label resolution. -/
theorem c3_placeholder_blanked (m : List (List Char × List Char)) :
    (lookupA m [] = none → display_label xxStr m = []) ∧
    ∀ raw, get_short_label (if raw = xxStr then [] else raw) m = xxStr →
      display_label raw m = [] := by
  constructor
  · intro hm
    have hs : strip ([] : List Char) = [] := rfl
    simp [display_label, get_short_label, hs, hm, xxStr]
  · intro raw h
    simp only [display_label]
    rw [h]
    simp

/-- Witness for c3_placeholder_blanked: part (a) at the empty label map,
part (b) at the map sending the empty string to XX — there resolution of
the blanked placeholder yields XX, which is blanked again. -/
theorem c3_placeholder_blanked_witness :
    display_label xxStr [] = [] ∧ display_label xxStr [([], xxStr)] = [] :=
  ⟨(c3_placeholder_blanked []).1 rfl,
   (c3_placeholder_blanked [([], xxStr)]).2 xxStr (by decide)⟩

/-- Lookup over an appended association list tries the left part first. -/
theorem lookupA_append {α β : Type} [DecidableEq α] :
    ∀ (a b : List (α × β)) (k : α),
    lookupA (a ++ b) k =
      (match lookupA a k with
       | some v => some v
       | none => lookupA b k) := by
  intro a b k
  induction a with
  | nil => rfl
  | cons p rest ih =>
    obtain ⟨k0, v0⟩ := p
    by_cases hk : k0 = k
    · simp [lookupA, hk]
    · simp only [List.cons_append, lookupA, if_neg hk]
      exact ih

/-- Unfolding lookup over a cons cell without destructuring the pair. -/
theorem lookupA_cons {α β : Type} [DecidableEq α] (p : α × β) (rest : List (α × β))
    (key : α) :
    lookupA (p :: rest) key = if p.1 = key then some p.2 else lookupA rest key := by
  obtain ⟨k, v⟩ := p
  rfl

/-- A key absent from every binding looks up to nothing. -/
theorem lookupA_none_of_any_false {α β : Type} [DecidableEq α] :
    ∀ (m : List (α × β)) (k : α),
    m.any (fun p => decide (p.1 = k)) = false → lookupA m k = none := by
  intro m k
  induction m with
  | nil => intro _; rfl
  | cons p rest ih =>
    intro h
    rw [List.any_cons, Bool.or_eq_false_iff] at h
    have hk0 : ¬(p.1 = k) := fun he => by simp [he] at h
    rw [lookupA_cons, if_neg hk0]
    exact ih h.2

/-- In-place update makes the updated key look up to the new value, as long
as the key is bound somewhere. -/
theorem lookupA_map_update_self {α β : Type} [DecidableEq α] (k : α) (v : β) :
    ∀ m : List (α × β), m.any (fun p => decide (p.1 = k)) = true →
    lookupA (m.map (fun p => if p.1 = k then (k, v) else p)) k = some v := by
  intro m
  induction m with
  | nil => intro h; simp at h
  | cons p rest ih =>
    intro hany
    rw [List.any_cons] at hany
    by_cases hk : p.1 = k
    · rw [List.map_cons, lookupA_cons, if_pos hk]
      simp
    · have hd0 : decide (p.1 = k) = false := decide_eq_false hk
      rw [hd0, Bool.false_or] at hany
      rw [List.map_cons, lookupA_cons, if_neg hk, if_neg hk]
      exact ih hany

/-- In-place update of one key leaves the lookup of any other unchanged. -/
theorem lookupA_map_update_ne {α β : Type} [DecidableEq α] (k k' : α) (v : β)
    (hne : k' ≠ k) :
    ∀ m : List (α × β),
    lookupA (m.map (fun p => if p.1 = k then (k, v) else p)) k' = lookupA m k' := by
  intro m
  induction m with
  | nil => rfl
  | cons p rest ih =>
    rw [List.map_cons, lookupA_cons, lookupA_cons]
    by_cases hk : p.1 = k
    · rw [if_pos hk]
      have h1 : ¬((k, v).1 = k') := fun he => hne he.symm
      have h2 : ¬(p.1 = k') := by
        rw [hk]
        exact fun he => hne he.symm
      rw [if_neg h1, if_neg h2]
      exact ih
    · rw [if_neg hk]
      by_cases hk' : p.1 = k'
      · rw [if_pos hk', if_pos hk']
      · rw [if_neg hk', if_neg hk']
        exact ih

/-- After a dict assignment, the assigned key looks up to the new value. -/
theorem lookupA_dictInsert_self {α β : Type} [DecidableEq α]
    (m : List (α × β)) (k : α) (v : β) :
    lookupA (dictInsert m k v) k = some v := by
  unfold dictInsert
  by_cases hany : m.any (fun p => decide (p.1 = k)) = true
  · rw [if_pos hany]
    exact lookupA_map_update_self k v m hany
  · rw [if_neg hany, lookupA_append]
    have hfalse : m.any (fun p => decide (p.1 = k)) = false := by
      cases h : m.any (fun p => decide (p.1 = k))
      · rfl
      · exact absurd h hany
    rw [lookupA_none_of_any_false m k hfalse]
    simp [lookupA]

/-- A dict assignment leaves the lookup of every other key unchanged. -/
theorem lookupA_dictInsert_ne {α β : Type} [DecidableEq α]
    (m : List (α × β)) (k k' : α) (v : β) (hne : k' ≠ k) :
    lookupA (dictInsert m k v) k' = lookupA m k' := by
  unfold dictInsert
  by_cases hany : m.any (fun p => decide (p.1 = k)) = true
  · rw [if_pos hany]
    exact lookupA_map_update_ne k k' v hne m
  · rw [if_neg hany, lookupA_append]
    cases hm : lookupA m k' with
    | some v0 => rfl
    | none =>
      have hkk' : ¬(k = k') := fun he => hne he.symm
      simp [lookupA, if_neg hkk']

/-- For a physical key, looking up the built index map yields the index of
the last enumerated occurrence, falling back to the accumulator. -/
theorem lookupA_buildIndexMap :
    ∀ (l : List (Nat × List Char)) (m : List (List Char × Nat)) (k : List Char),
    k ∈ physicalKeyNames →
    lookupA (buildIndexMap m l) k =
      (match lastIdxFor l k with
       | some i => some i
       | none => lookupA m k) := by
  intro l
  induction l with
  | nil => intro m k _; rfl
  | cons p rest ih =>
    intro m k hk
    obtain ⟨i, k0⟩ := p
    rw [buildIndexMap, lastIdxFor]
    rw [ih _ k hk]
    cases hrest : lastIdxFor rest k with
    | some j => rfl
    | none =>
      by_cases hk0 : k0 = k
      · subst hk0
        rw [if_pos hk, if_pos rfl]
        exact lookupA_dictInsert_self m k0 i
      · rw [if_neg hk0]
        by_cases hmem : k0 ∈ physicalKeyNames
        · rw [if_pos hmem]
          exact lookupA_dictInsert_ne m k0 k i (fun he => hk0 he.symm)
        · rw [if_neg hmem]

/-- A key that never occurs has no last enumerated occurrence. -/
theorem lastIdxFor_enumF_none :
    ∀ (l : List (List Char)) (n : Nat) (k : List Char), k ∉ l →
    lastIdxFor (enumF n l) k = none := by
  intro l
  induction l with
  | nil => intro n k _; rfl
  | cons a rest ih =>
    intro n k hk
    rw [enumF, lastIdxFor]
    rw [ih (n + 1) k (fun hm => hk (List.mem_cons_of_mem a hm))]
    have ha : ¬(a = k) := fun he => hk (he ▸ List.mem_cons_self a rest)
    rw [if_neg ha]

/-- The last enumerated occurrence of a key that sits at index i with no
later occurrence is the offset-shifted index n + i. -/
theorem lastIdxFor_enumF_last :
    ∀ (l : List (List Char)) (n i : Nat) (hi : i < l.length) (k : List Char),
    l.get ⟨i, hi⟩ = k →
    (∀ j (hj : j < l.length), i < j → l.get ⟨j, hj⟩ ≠ k) →
    lastIdxFor (enumF n l) k = some (n + i) := by
  intro l
  induction l with
  | nil => intro n i hi; exact absurd hi (Nat.not_lt_zero i)
  | cons a rest ih =>
    intro n i hi k hget hlast
    rw [enumF, lastIdxFor]
    cases i with
    | zero =>
      have ha : a = k := hget
      have hnot : k ∉ rest := by
        intro hmem
        obtain ⟨⟨j, hj⟩, hjk⟩ := List.mem_iff_get.mp hmem
        exact hlast (j + 1) (Nat.succ_lt_succ hj) (Nat.succ_pos j) hjk
      rw [lastIdxFor_enumF_none rest (n + 1) k hnot, if_pos ha]
      simp
    | succ i' =>
      have hi' : i' < rest.length := Nat.lt_of_succ_lt_succ hi
      have hget' : rest.get ⟨i', hi'⟩ = k := hget
      have hlast' : ∀ j (hj : j < rest.length), i' < j → rest.get ⟨j, hj⟩ ≠ k := by
        intro j hj hij
        exact hlast (j + 1) (Nat.succ_lt_succ hj) (Nat.succ_lt_succ hij)
      rw [ih (n + 1) i' hi' k hget' hlast']
      have harith : n + 1 + i' = n + (i' + 1) := by omega
      rw [harith]

/-- The assigned form of a sufficiently long layer is its form at the
index. -/
theorem assignedForm_lt (l : List (List Char)) (i : Nat) (h : i < l.length) :
    assignedForm l i = l.get ⟨i, h⟩ := by
  unfold assignedForm
  rw [List.getD_eq_getD_get?, List.get?_eq_get h]
  rfl

/-- The assigned form of a too-short layer is the not-applicable marker. -/
theorem assignedForm_ge (l : List (List Char)) (i : Nat) (h : l.length ≤ i) :
    assignedForm l i = naStr := by
  unfold assignedForm
  rw [List.getD_eq_getD_get?, List.get?_eq_none.mpr h]
  rfl

/-- C4: when the physical-key entries of the defsrc list are pairwise
distinct and the entry at index i is a physical key, the aligner pairs that
key with the layer's form at the same index i; a layer with at least i + 1
forms contributes its i-th form, and a shorter layer contributes the
not-applicable marker — in both cases a defined result, never an error. -/
theorem c4_aligner_index_pairing (defsrc_list layer_keys : List (List Char))
    (hdist : ∀ (j1 : Nat) (hj1 : j1 < defsrc_list.length) (j2 : Nat)
      (hj2 : j2 < defsrc_list.length),
      defsrc_list.get ⟨j1, hj1⟩ ∈ physicalKeyNames →
      defsrc_list.get ⟨j1, hj1⟩ = defsrc_list.get ⟨j2, hj2⟩ → j1 = j2)
    (i : Nat) (hi : i < defsrc_list.length)
    (hk : defsrc_list.get ⟨i, hi⟩ ∈ physicalKeyNames) :
    alignedForm defsrc_list layer_keys (defsrc_list.get ⟨i, hi⟩) =
      some (assignedForm layer_keys i) ∧
    (∀ h : i < layer_keys.length, assignedForm layer_keys i = layer_keys.get ⟨i, h⟩) ∧
    (layer_keys.length ≤ i → assignedForm layer_keys i = naStr) := by
  have hlast : ∀ j (hj : j < defsrc_list.length), i < j →
      defsrc_list.get ⟨j, hj⟩ ≠ defsrc_list.get ⟨i, hi⟩ := by
    intro j hj hij he
    have := hdist j hj i hi (he ▸ hk) he
    omega
  have hidx : lastIdxFor (enumF 0 defsrc_list) (defsrc_list.get ⟨i, hi⟩) = some i := by
    have := lastIdxFor_enumF_last defsrc_list 0 i hi (defsrc_list.get ⟨i, hi⟩) rfl hlast
    rw [Nat.zero_add] at this
    exact this
  have hlook : lookupA (defsrc_index_for_key defsrc_list) (defsrc_list.get ⟨i, hi⟩) =
      some i := by
    unfold defsrc_index_for_key
    rw [lookupA_buildIndexMap (enumF 0 defsrc_list) [] _ hk, hidx]
  refine ⟨?_, fun h => assignedForm_lt layer_keys i h,
    fun h => assignedForm_ge layer_keys i h⟩
  unfold alignedForm
  rw [hlook]

/-- Witness for c4_aligner_index_pairing: defsrc q w against the
one-form layer 1, at index 1 (key w, layer too short). -/
theorem c4_aligner_index_pairing_witness :
    alignedForm [['q'], ['w']] [['1']] (([['q'], ['w']] : List (List Char)).get
      ⟨1, by decide⟩) = some (assignedForm [['1']] 1) ∧
    (∀ h : 1 < ([['1']] : List (List Char)).length,
      assignedForm [['1']] 1 = ([['1']] : List (List Char)).get ⟨1, h⟩) ∧
    (([['1']] : List (List Char)).length ≤ 1 → assignedForm [['1']] 1 = naStr) :=
  c4_aligner_index_pairing [['q'], ['w']] [['1']] (by decide) 1 (by decide) (by decide)

/-- C9: when a physical key occurs at two indices i1 < i2 of the defsrc
list and i2 is its last occurrence, the key-to-index map records i2 —
each later occurrence overwrote the earlier one — and every per-layer
pairing for that key uses index i2, never i1. -/
theorem c9_aligner_last_occurrence_wins (defsrc_list : List (List Char))
    (k : List Char) (hk : k ∈ physicalKeyNames) (i1 i2 : Nat)
    (hi1 : i1 < defsrc_list.length) (hi2 : i2 < defsrc_list.length) (_hlt : i1 < i2)
    (_he1 : defsrc_list.get ⟨i1, hi1⟩ = k) (he2 : defsrc_list.get ⟨i2, hi2⟩ = k)
    (hlast : ∀ j (hj : j < defsrc_list.length), i2 < j →
      defsrc_list.get ⟨j, hj⟩ ≠ k) :
    lookupA (defsrc_index_for_key defsrc_list) k = some i2 ∧
    ∀ layer_keys, alignedForm defsrc_list layer_keys k =
      some (assignedForm layer_keys i2) := by
  have hidx : lastIdxFor (enumF 0 defsrc_list) k = some i2 := by
    have := lastIdxFor_enumF_last defsrc_list 0 i2 hi2 k he2 hlast
    rw [Nat.zero_add] at this
    exact this
  have hlook : lookupA (defsrc_index_for_key defsrc_list) k = some i2 := by
    unfold defsrc_index_for_key
    rw [lookupA_buildIndexMap (enumF 0 defsrc_list) [] k hk, hidx]
  refine ⟨hlook, fun layer_keys => ?_⟩
  unfold alignedForm
  rw [hlook]

/-- Witness for c9_aligner_last_occurrence_wins: defsrc a b a, where the
key a occurs at indices 0 and 2. -/
theorem c9_aligner_last_occurrence_wins_witness :
    lookupA (defsrc_index_for_key [['a'], ['b'], ['a']]) ['a'] = some 2 ∧
    ∀ layer_keys, alignedForm [['a'], ['b'], ['a']] layer_keys ['a'] =
      some (assignedForm layer_keys 2) :=
  c9_aligner_last_occurrence_wins [['a'], ['b'], ['a']] ['a'] (by decide) 0 2
    (by decide) (by decide) (by decide) (by decide) (by decide) (by decide)

/-- Folding dict assignments over extracted layer blocks makes a name look
up to the split body of its last block, falling back to the accumulator. -/
theorem lookupA_layer_fold :
    ∀ (blocks : List (Option (List Char) × List Char))
      (d0 : List (Option (List Char) × List (List Char))) (name : List Char),
    lookupA (blocks.foldl
        (fun d b => dictInsert d b.1 (split_top_level_forms b.2)) d0) (some name) =
      (match lastBodyFor blocks name with
       | some body => some (split_top_level_forms body)
       | none => lookupA d0 (some name)) := by
  intro blocks
  induction blocks with
  | nil => intro d0 name; rfl
  | cons b rest ih =>
    intro d0 name
    rw [List.foldl_cons, lastBodyFor]
    rw [ih (dictInsert d0 b.1 (split_top_level_forms b.2)) name]
    cases hrest : lastBodyFor rest name with
    | some r => rfl
    | none =>
      by_cases hb : b.1 = some name
      · rw [if_pos hb, ← hb]
        exact lookupA_dictInsert_self d0 b.1 (split_top_level_forms b.2)
      · rw [if_neg hb]
        exact lookupA_dictInsert_ne d0 b.1 (some name) (split_top_level_forms b.2)
          (fun he => hb he.symm)

/-- C8: when the last extracted layer block named name has body body0, the
layer table of the parsed configuration maps that name to the split of
body0 (last occurrence wins); and whenever at least one defsrc block is
extracted, the source sequence is the split of the first one's body,
regardless of any later defsrc blocks. -/
theorem c8_duplicate_layers_and_first_defsrc (content0 : List Char)
    (name body0 : List Char)
    (hl : lastBodyFor (extract_defblocks (stripComments content0) deflayerKw) name =
      some body0) :
    lookupA (parse_kmonad_config content0).2 (some name) =
      some (split_top_level_forms body0) ∧
    ∀ nm0 b0 rest,
      extract_defblocks (stripComments content0) defsrcKw = (nm0, b0) :: rest →
      (parse_kmonad_config content0).1 = split_top_level_forms b0 := by
  constructor
  · have h2 := lookupA_layer_fold
      (extract_defblocks (stripComments content0) deflayerKw) [] name
    rw [hl] at h2
    simp only [parse_kmonad_config]
    exact h2
  · intro nm0 b0 rest h
    simp only [parse_kmonad_config]
    rw [h]

/-- Witness for c8_duplicate_layers_and_first_defsrc on the text
(deflayer x a)(deflayer x b)(defsrc q), whose two x layer blocks collapse
to the second one. -/
theorem c8_duplicate_layers_and_first_defsrc_witness :
    lookupA (parse_kmonad_config ['(', 'd', 'e', 'f', 'l', 'a', 'y', 'e', 'r', ' ',
        'x', ' ', 'a', ')', '(', 'd', 'e', 'f', 'l', 'a', 'y', 'e', 'r', ' ', 'x',
        ' ', 'b', ')', '(', 'd', 'e', 'f', 's', 'r', 'c', ' ', 'q', ')']).2
      (some ['x']) = some (split_top_level_forms ['b']) ∧
    ∀ nm0 b0 rest,
      extract_defblocks (stripComments ['(', 'd', 'e', 'f', 'l', 'a', 'y', 'e', 'r',
        ' ', 'x', ' ', 'a', ')', '(', 'd', 'e', 'f', 'l', 'a', 'y', 'e', 'r', ' ',
        'x', ' ', 'b', ')', '(', 'd', 'e', 'f', 's', 'r', 'c', ' ', 'q', ')'])
        defsrcKw = (nm0, b0) :: rest →
      (parse_kmonad_config ['(', 'd', 'e', 'f', 'l', 'a', 'y', 'e', 'r', ' ', 'x',
        ' ', 'a', ')', '(', 'd', 'e', 'f', 'l', 'a', 'y', 'e', 'r', ' ', 'x', ' ',
        'b', ')', '(', 'd', 'e', 'f', 's', 'r', 'c', ' ', 'q', ')']).1 =
        split_top_level_forms b0 :=
  c8_duplicate_layers_and_first_defsrc _ ['x'] ['b'] (by rfl)

/-- C10: a balanced block whose inner text, after removing the outer
parentheses and trimming, has fewer than two whitespace-separated parts is
skipped by the block extractor: it contributes no block, and extraction
continues just past it. -/
theorem c10_short_block_skipped (content block_type : List Char)
    (fuel idx found next_idx : Nat) (expr_string : List Char)
    (hf : findSubFrom content ('(' :: block_type) idx = some found)
    (he : find_top_level_expression content found = .ok (some expr_string, next_idx))
    (hp : (splitNoneOnce (strip (((strip expr_string).drop 1).dropLast))).length < 2) :
    extract_defblocks_aux content block_type (fuel + 1) idx =
      extract_defblocks_aux content block_type fuel next_idx := by
  simp only [extract_defblocks_aux, hf, he]
  rcases hparts : splitNoneOnce (strip (((strip expr_string).drop 1).dropLast)) with
    _ | ⟨a, _ | ⟨b, t⟩⟩
  · rfl
  · rfl
  · rw [hparts] at hp
    simp only [List.length_cons] at hp
    omega

/-- Witness for c10_short_block_skipped: the empty-bodied block (defsrc)
inside (defsrc)(defsrc a) is skipped and scanning resumes at offset 8. -/
theorem c10_short_block_skipped_witness :
    extract_defblocks_aux ['(', 'd', 'e', 'f', 's', 'r', 'c', ')', '(', 'd', 'e',
        'f', 's', 'r', 'c', ' ', 'a', ')'] defsrcKw (5 + 1) 0 =
      extract_defblocks_aux ['(', 'd', 'e', 'f', 's', 'r', 'c', ')', '(', 'd', 'e',
        'f', 's', 'r', 'c', ' ', 'a', ')'] defsrcKw 5 8 :=
  c10_short_block_skipped _ defsrcKw 5 0 0 8
    ['(', 'd', 'e', 'f', 's', 'r', 'c', ')'] (by rfl) (by rfl) (by decide)

/-- The splitter on an exhausted suffix yields nothing, whatever the fuel. -/
theorem splitAux_nil (body : List Char) : ∀ (fuel i : Nat),
    splitAux body fuel [] i = [] := by
  intro fuel i
  cases fuel <;> rfl

/-- The splitter skips a leading block of whitespace, spending one unit of
fuel per character. -/
theorem splitAux_ws_skip (body : List Char) : ∀ (ws rem : List Char) (fuel i : Nat),
    (∀ c ∈ ws, isSpace c = true) →
    splitAux body fuel (ws ++ rem) i =
      splitAux body (fuel - ws.length) rem (i + ws.length) := by
  intro ws
  induction ws with
  | nil => intro rem fuel i _; simp
  | cons c ws' ih =>
    intro rem fuel i hws
    have hc : isSpace c = true := hws c (List.mem_cons_self c ws')
    cases fuel with
    | zero =>
      rw [Nat.zero_sub]
      rfl
    | succ fuel =>
      rw [List.cons_append, splitAux, if_pos hc]
      rw [ih rem fuel (i + 1) (fun x hx => hws x (List.mem_cons_of_mem c hx))]
      have h1 : fuel + 1 - (c :: ws').length = fuel - ws'.length := by
        rw [List.length_cons]
        omega
      have h2 : i + (c :: ws').length = i + 1 + ws'.length := by
        rw [List.length_cons]
        omega
      rw [h1, h2]

/-- The splitter consumes a whole bare token (nonempty, whitespace-free,
not starting a parenthesised group) in one step when the rest of the suffix
is empty or starts with whitespace. -/
theorem splitAux_token (body : List Char) (t rem : List Char) (fuel i : Nat)
    (ht : t ≠ []) (htc : ∀ c ∈ t, isSpace c = false ∧ c ≠ '(')
    (hrem : rem = [] ∨ ∃ c0 r0, rem = c0 :: r0 ∧ isSpace c0 = true) :
    splitAux body (fuel + 1) (t ++ rem) i =
      t :: splitAux body fuel rem (i + t.length) := by
  cases t with
  | nil => exact absurd rfl ht
  | cons c t' =>
    have hc : isSpace c = false := (htc c (List.mem_cons_self c t')).1
    have hcp : c ≠ '(' := (htc c (List.mem_cons_self c t')).2
    have hall : ∀ x ∈ c :: t', (fun ch => !(isSpace ch)) x = true := by
      intro x hx
      simp [(htc x hx).1]
    have htake : (c :: t' ++ rem).takeWhile (fun ch => !(isSpace ch)) = c :: t' := by
      rw [takeWhile_append_all _ _ _ hall]
      rcases hrem with h | ⟨c0, r0, hr, hc0⟩
      · rw [h]
        simp
      · rw [hr, List.takeWhile_cons]
        simp [hc0]
    have hdrop : (c :: t' ++ rem).dropWhile (fun ch => !(isSpace ch)) = rem := by
      rw [dropWhile_append_all _ _ _ hall]
      rcases hrem with h | ⟨c0, r0, hr, hc0⟩
      · rw [h]
        rfl
      · rw [hr, List.dropWhile_cons]
        simp [hc0]
    rw [List.cons_append, splitAux]
    rw [if_neg (by simp [hc]), if_neg hcp]
    rw [← List.cons_append, htake, hdrop]

/-- A body assembled from bare-token chunks separated by whitespace splits
into exactly its tokens, provided there is enough fuel. -/
theorem splitAux_chunks (body : List Char) :
    ∀ (pairs : List (List Char × List Char)) (fuel i : Nat),
    (∀ p ∈ pairs, p.1 ≠ [] ∧ ∀ c ∈ p.1, isSpace c = false ∧ c ≠ '(') →
    (∀ p ∈ pairs, ∀ c ∈ p.2, isSpace c = true) →
    (∀ p ∈ pairs.dropLast, p.2 ≠ []) →
    (bodyChunks pairs).length < fuel →
    splitAux body fuel (bodyChunks pairs) i = pairs.map Prod.fst := by
  intro pairs
  induction pairs with
  | nil => intro fuel i _ _ _ _; exact splitAux_nil body fuel i
  | cons p rest ih =>
    intro fuel i htok hsep hinner hfuel
    obtain ⟨t, w⟩ := p
    have ht : t ≠ [] := (htok (t, w) (List.mem_cons_self _ _)).1
    have htc : ∀ c ∈ t, isSpace c = false ∧ c ≠ '(' :=
      (htok (t, w) (List.mem_cons_self _ _)).2
    have hwc : ∀ c ∈ w, isSpace c = true := hsep (t, w) (List.mem_cons_self _ _)
    have hchunks : bodyChunks ((t, w) :: rest) = t ++ (w ++ bodyChunks rest) := by
      rw [bodyChunks, List.append_assoc]
    rw [hchunks] at hfuel ⊢
    have htlen : 1 ≤ t.length := by
      cases t with
      | nil => exact absurd rfl ht
      | cons a b => simp
    have hlen : t.length + (w.length + (bodyChunks rest).length) < fuel := by
      rw [List.length_append, List.length_append] at hfuel
      omega
    obtain ⟨f, rfl⟩ : ∃ f, fuel = f + 1 := ⟨fuel - 1, by omega⟩
    have hrem : w ++ bodyChunks rest = [] ∨
        ∃ c0 r0, w ++ bodyChunks rest = c0 :: r0 ∧ isSpace c0 = true := by
      cases hw : w with
      | nil =>
        cases hrest : rest with
        | nil => exact Or.inl rfl
        | cons r rs =>
          exfalso
          have hmem : (t, w) ∈ ((t, w) :: rest).dropLast := by
            rw [hrest, List.dropLast_cons_of_ne_nil (List.cons_ne_nil r rs)]
            exact List.mem_cons_self _ _
          exact hinner (t, w) hmem hw
      | cons c0 w0 =>
        refine Or.inr ⟨c0, w0 ++ bodyChunks rest, by rw [List.cons_append], ?_⟩
        exact hwc c0 (hw ▸ List.mem_cons_self c0 w0)
    rw [splitAux_token body t (w ++ bodyChunks rest) f i ht htc hrem]
    rw [splitAux_ws_skip body w (bodyChunks rest) f (i + t.length) hwc]
    rw [ih (f - w.length) (i + t.length + w.length)
      (fun q hq => htok q (List.mem_cons_of_mem _ hq))
      (fun q hq => hsep q (List.mem_cons_of_mem _ hq))
      ?_ ?_]
    · rfl
    · intro q hq
      rcases rest with _ | ⟨r, rs⟩
      · exact absurd hq (by simp)
      · refine hinner q ?_
        rw [List.dropLast_cons_of_ne_nil (List.cons_ne_nil r rs)]
        exact List.mem_cons_of_mem _ hq
    · omega

/-- C6: a body made of k whitespace-separated bare tokens containing no
parentheses — leading whitespace ws0, then each token followed by its
whitespace run, the inner runs nonempty — splits into exactly those k
tokens, each equal to the original token; each such token is unchanged by
whitespace trimming. -/
theorem c6_split_bare_tokens (ws0 : List Char) (pairs : List (List Char × List Char))
    (hw0 : ∀ c ∈ ws0, isSpace c = true)
    (htok : ∀ p ∈ pairs, p.1 ≠ [] ∧ ∀ c ∈ p.1,
      isSpace c = false ∧ c ≠ '(' ∧ c ≠ ')')
    (hsep : ∀ p ∈ pairs, ∀ c ∈ p.2, isSpace c = true)
    (hinner : ∀ p ∈ pairs.dropLast, p.2 ≠ []) :
    split_top_level_forms (ws0 ++ bodyChunks pairs) = pairs.map Prod.fst ∧
    ∀ t ∈ pairs.map Prod.fst, strip t = t := by
  constructor
  · rw [split_top_level_forms]
    rw [splitAux_ws_skip _ ws0 (bodyChunks pairs) _ 0 hw0]
    refine splitAux_chunks _ pairs _ (0 + ws0.length)
      (fun p hp => ⟨(htok p hp).1, fun c hc => ⟨((htok p hp).2 c hc).1,
        ((htok p hp).2 c hc).2.1⟩⟩) hsep hinner ?_
    rw [List.length_append]
    omega
  · intro t hmem
    obtain ⟨p, hp, hpt⟩ := List.mem_map.mp hmem
    refine strip_eq_self t ?_
    intro x hx
    exact ((htok p hp).2 x (hpt ▸ hx)).1

/-- Witness for c6_split_bare_tokens: the body made of the tokens ab and c
separated by single spaces, with a leading space. -/
theorem c6_split_bare_tokens_witness :
    split_top_level_forms ([' '] ++ bodyChunks [(['a', 'b'], [' ']), (['c'], [])]) =
      ([(['a', 'b'], [' ']), (['c'], [])].map Prod.fst : List (List Char)) ∧
    ∀ t ∈ ([(['a', 'b'], [' ']), (['c'], [])].map Prod.fst : List (List Char)),
      strip t = t :=
  c6_split_bare_tokens [' '] [(['a', 'b'], [' ']), (['c'], [])] (by decide)
    (by decide) (by decide) (by decide)

/-- Every nonempty proper prefix of a depth-d nested expression (with
parenthesis-free interior) opens strictly more parentheses than it
closes. -/
theorem nestE_take_imbalanced (d : Nat) (inner : List Char) (hd : 1 ≤ d)
    (hin : ∀ c ∈ inner, c ≠ '(' ∧ c ≠ ')') :
    ∀ m, 1 ≤ m →
    m < (List.replicate d '(' ++ inner ++ List.replicate d ')').length →
    countCh ')' ((List.replicate d '(' ++ inner ++ List.replicate d ')').take m) <
      countCh '(' ((List.replicate d '(' ++ inner ++ List.replicate d ')').take m) := by
  intro m hm1 hmlt
  rw [List.length_append, List.length_append, List.length_replicate,
    List.length_replicate] at hmlt
  rw [List.append_assoc, List.take_append_eq_append_take,
    List.take_append_eq_append_take, List.take_replicate, List.take_replicate,
    List.length_replicate]
  have hzo : countCh '(' (inner.take (m - d)) = 0 :=
    countCh_eq_zero _ _ (fun x hx => (hin x (List.take_subset _ _ hx)).1)
  have hzc : countCh ')' (inner.take (m - d)) = 0 :=
    countCh_eq_zero _ _ (fun x hx => (hin x (List.take_subset _ _ hx)).2)
  have hti : (inner.take (m - d)).length ≤ inner.length := by
    have := List.length_take (m - d) inner
    omega
  rw [countCh_append, countCh_append, countCh_append, countCh_append,
    countCh_replicate, countCh_replicate, countCh_replicate, countCh_replicate,
    hzo, hzc]
  have hop : ('(' : Char) ≠ ')' := by decide
  have hcl : (')' : Char) ≠ '(' := by decide
  rw [if_pos rfl, if_pos rfl, if_neg hop, if_neg hcl]
  omega

/-- The scanner applied at offset 0 of a depth-d nested expression with
parenthesis-free interior returns the whole expression and its length. -/
theorem find_nestE (d : Nat) (inner : List Char) (hd : 1 ≤ d)
    (hin : ∀ c ∈ inner, c ≠ '(' ∧ c ≠ ')') :
    find_top_level_expression
        (List.replicate d '(' ++ inner ++ List.replicate d ')') 0 =
      .ok (some (List.replicate d '(' ++ inner ++ List.replicate d ')'),
        (List.replicate d '(' ++ inner ++ List.replicate d ')').length) := by
  obtain ⟨d', rfl⟩ : ∃ d', d = d' + 1 := ⟨d - 1, by omega⟩
  have hz1 : countCh '(' inner = 0 :=
    countCh_eq_zero _ _ (fun x hx => (hin x hx).1)
  have hz2 : countCh ')' inner = 0 :=
    countCh_eq_zero _ _ (fun x hx => (hin x hx).2)
  set E := List.replicate (d' + 1) '(' ++ inner ++ List.replicate (d' + 1) ')'
    with hE
  set E₁ := List.replicate d' '(' ++ inner ++ List.replicate (d' + 1) ')' with hE1
  have hcons : E = '(' :: E₁ := by
    rw [hE, hE1, List.replicate_succ, List.cons_append, List.cons_append]
  have hcnt : countCh '(' E₁ + 1 ≤ countCh ')' E₁ := by
    rw [hE1, countCh_append, countCh_append, countCh_append, countCh_append,
      countCh_replicate, countCh_replicate, countCh_replicate, countCh_replicate,
      hz1, hz2]
    have hop : ('(' : Char) ≠ ')' := by decide
    have hcl : (')' : Char) ≠ '(' := by decide
    rw [if_pos rfl, if_pos rfl, if_neg hop, if_neg hcl]
    omega
  obtain ⟨e, n, hok⟩ := findTLEAux_succeeds E 0 E₁ 1 1 (Nat.le_refl 1) hcnt
  have hfind : find_top_level_expression E 0 = .ok (some e, n) := by
    unfold find_top_level_expression
    rw [List.drop_zero, hcons, findTLEAux, if_pos rfl]
    exact hok
  obtain ⟨h1, h2, h3, h4, h5⟩ := find_ok_spec E 0 e n hfind
  have he : e = E.take n := by
    rw [h3, List.drop_zero, Nat.sub_zero]
  have hn : n = E.length := by
    by_contra hne
    have hlt : n < E.length := lt_of_le_of_ne h2 hne
    have himb := nestE_take_imbalanced (d' + 1) inner (by omega) hin n
      (by omega) (by rw [← hE]; exact hlt)
    rw [← hE, ← he] at himb
    omega
  rw [hfind, he, hn, List.take_length]

/-- C7: a body consisting of one balanced sub-expression with d nested
parentheses around a parenthesis-free interior splits into exactly that
sub-expression as a single form, character for character unchanged,
whatever the depth d. -/
theorem c7_nested_subexpression_intact (d : Nat) (inner : List Char) (hd : 1 ≤ d)
    (hin : ∀ c ∈ inner, c ≠ '(' ∧ c ≠ ')') :
    split_top_level_forms (List.replicate d '(' ++ inner ++ List.replicate d ')') =
      [List.replicate d '(' ++ inner ++ List.replicate d ')'] := by
  obtain ⟨d', rfl⟩ : ∃ d', d = d' + 1 := ⟨d - 1, by omega⟩
  have hfind := find_nestE (d' + 1) inner hd hin
  set E := List.replicate (d' + 1) '(' ++ inner ++ List.replicate (d' + 1) ')'
    with hE
  set E₁ := List.replicate d' '(' ++ inner ++ List.replicate (d' + 1) ')' with hE1
  have hcons : E = '(' :: E₁ := by
    rw [hE, hE1, List.replicate_succ, List.cons_append, List.cons_append]
  rw [split_top_level_forms]
  rw [hcons] at hfind ⊢
  have hnsp : ¬(isSpace '(' = true) := by decide
  rw [splitAux, if_neg hnsp, if_pos rfl]
  simp only [hfind]
  rw [List.drop_length, splitAux_nil]

/-- Witness for c7_nested_subexpression_intact at depth 3 around the
interior a b. -/
theorem c7_nested_subexpression_intact_witness :
    split_top_level_forms (List.replicate 3 '(' ++ ['a', ' ', 'b'] ++
        List.replicate 3 ')') =
      [List.replicate 3 '(' ++ ['a', ' ', 'b'] ++ List.replicate 3 ')'] :=
  c7_nested_subexpression_intact 3 ['a', ' ', 'b'] (by decide) (by decide)

end KmonadVis
